import Mathlib

/-
Verification of the ledger core of the theta-protocol-ledger repository.

The repository slice at hand contains ledger/ledger.go (the ledger façade),
core/vote_test.go and p2p/messenger/messenger_test.go.  The supporting
packages (types, ledger/state, ledger/execution, mempool, common/result,
core) are not part of the slice; where a definition below models one of
those missing parts it is marked "Modelled from the spec:" and follows the
specification's words.  Everything else is translated directly from
ledger/ledger.go.
-/

namespace Theta

/-- Modelled from the spec: raw transaction bytes (common.Bytes). -/
abbrev Bytes := List Nat

/-- Modelled from the spec: a fixed-width account address (common.Address). -/
abbrev Address := Nat

/-- Modelled from the spec: a state-root hash (common.Hash), a commitment to
the view contents. -/
abbrev StateHash := List Nat

/-- Modelled from the spec: a coin amount carried by a transaction output. -/
abbrev Coins := Nat

/-- Modelled from the spec: a cryptographic signature (crypto.Signature). -/
abbrev Signature := Nat

/-- Modelled from the spec: the error codes of the common/result package that
the ledger façade uses (CodeOK, a generic error code, CodeUnauthorizedTx). -/
inductive ErrCode where
  | codeOK : ErrCode
  | codeGenericError : ErrCode
  | codeUnauthorizedTx : ErrCode
deriving DecidableEq, BEq, Repr

/-- Modelled from the spec: result.Result, a machine-readable code plus a
human message. -/
structure Result where
  code : ErrCode
  message : String
deriving DecidableEq, BEq, Repr

/-- Modelled from the spec: result.OK. -/
def Result.OK : Result := ⟨ErrCode.codeOK, ""⟩

/-- Modelled from the spec: result.Error builds a generic error result. -/
def Result.Error (msg : String) : Result := ⟨ErrCode.codeGenericError, msg⟩

/-- Modelled from the spec: result.Result.WithErrorCode replaces the code. -/
def Result.withErrorCode (r : Result) (c : ErrCode) : Result := ⟨c, r.message⟩

/-- Modelled from the spec: result.Result.IsError, true on any non-OK code. -/
def Result.isError (r : Result) : Bool := r.code != ErrCode.codeOK

/-- Modelled from the spec: types.TxInput — address plus optional public key
(sequence and coins are not read by the ledger façade and are omitted). -/
structure TxInput where
  address : Address
  pubKey : Option Nat
deriving DecidableEq, BEq, Repr

/-- Modelled from the spec: types.TxOutput — address and credited coins. -/
structure TxOutput where
  address : Address
  coins : Coins
deriving DecidableEq, BEq, Repr

/-- Modelled from the spec: a slashing intent recorded on a view during
execution (slashed address, reserve sequence, proof bytes). -/
structure SlashIntent where
  address : Address
  reserveSequence : Nat
  proof : Bytes
deriving DecidableEq, BEq, Repr

/-- Modelled from the spec: the closed transaction sum type of the types
package — CoinbaseTx, SlashTx and a user kind (SendTx), each carrying a
signature map keyed by signer address. -/
inductive Tx where
  | coinbase (proposer : TxInput) (outputs : List TxOutput) (blockHeight : Nat)
      (sigs : List (Address × Signature)) : Tx
  | slash (proposer : TxInput) (slashedAddress : Address) (reserveSequence : Nat)
      (slashProof : Bytes) (sigs : List (Address × Signature)) : Tx
  | send (inputs : List TxInput) (outputs : List TxOutput) (fee : Coins)
      (sigs : List (Address × Signature)) : Tx
deriving DecidableEq, BEq, Repr

/-- The kind tag of a transaction. -/
inductive TxKind where
  | coinbaseK : TxKind
  | slashK : TxKind
  | sendK : TxKind
deriving DecidableEq, BEq, Repr

/-- The kind of a transaction. -/
def Tx.kind : Tx → TxKind
  | Tx.coinbase .. => TxKind.coinbaseK
  | Tx.slash .. => TxKind.slashK
  | Tx.send .. => TxKind.sendK

/-- Modelled from the spec: types.Tx.SetSignature stores a signature under
the signer address in the transaction's signature map. -/
def setSig (sigs : List (Address × Signature)) (addr : Address) (sig : Signature) :
    List (Address × Signature) :=
  if sigs.any (fun p => p.1 == addr) then
    sigs.map (fun p => if p.1 == addr then (addr, sig) else p)
  else
    sigs ++ [(addr, sig)]

/-- Modelled from the spec: st.StoreView — an authenticated copy-on-write map
from address to account record, plus the slash-intent queue and a height. -/
structure StoreView where
  accounts : List (Address × Nat)
  height : Nat
  slashIntents : List SlashIntent
deriving DecidableEq, BEq, Repr

/-- Modelled from the spec: StoreView.Hash, a pure commitment over the
current logical contents of the view (equal contents give equal hash). -/
def StoreView.hash (v : StoreView) : StateHash :=
  v.accounts.length :: (v.accounts.map (fun p => [p.1, p.2])).flatten

/-- Modelled from the spec: st.LedgerState — the three named views over the
same database, the finalized view, the committed snapshots, the chain ID and
the current block height. -/
structure LedgerState where
  chainID : String
  screened : StoreView
  checked : StoreView
  delivered : StoreView
  finalized : StoreView
  db : List StoreView
  height : Nat
deriving DecidableEq, BEq, Repr

/-- Modelled from the spec: the lookup a StoreView reset performs — a
previously committed snapshot with the requested height and root. -/
def findSnapshot (db : List StoreView) (h : Nat) (r : StateHash) : Option StoreView :=
  db.find? (fun v => v.height == h && v.hash == r)

/-- Modelled from the spec: LedgerState.ResetState restores the delivered
view to a previously committed (height, root); it fails if the pair is
unknown. -/
def LedgerState.resetToSnapshot (s : LedgerState) (h : Nat) (r : StateHash) :
    LedgerState × Result :=
  match findSnapshot s.db h r with
  | some v => ({ s with delivered := v }, Result.OK)
  | none => (s, Result.Error "unknown state root")

/-- Modelled from the spec: LedgerState.Commit persists the delivered view as
a committed snapshot and refreshes the screened mirror. -/
def LedgerState.commit (s : LedgerState) : LedgerState :=
  { s with db := s.delivered :: s.db, screened := s.delivered }

/-- Modelled from the spec: the deterministic screen/check/execute pipeline of
the execution package, one operation per transaction against a view.
ScreenTx does not mutate; CheckTx and ExecuteTx may mutate their view. -/
structure Executor where
  screenTx : StoreView → Tx → Result
  checkTx : StoreView → Tx → StoreView × Result
  executeTx : StoreView → Tx → StoreView × Result

/-- Modelled from the spec: core.Validator, exposing an address and a public
key. -/
structure Validator where
  address : Address
  pubKey : Nat
deriving DecidableEq, BEq, Repr

/-- Modelled from the spec: the external collaborators of the ledger façade —
the consensus engine (epoch, signing key), the validator manager, the
transaction codec of the types package, and exec.CalculateReward composed
with the order in which the Go runtime enumerates the resulting map
(rewardIter returns the reward map in its enumeration order). -/
structure Env where
  epoch : Nat
  getProposerForEpoch : Nat → Validator
  getValidatorSetForEpoch : Nat → List Validator
  sign : Bytes → Option Signature
  executor : Executor
  txFromBytes : Bytes → Option Tx
  txToBytes : Tx → Option Bytes
  rewardIter : StoreView → List Address → List (Address × Coins)

/-- Modelled from the spec: core.MaxNumRegularTxsPerBlock, the cap on regular
transactions reaped per block (the value is not given in the excerpt). -/
def MaxNumRegularTxsPerBlock : Nat := 256

/-- Modelled from the spec: Mempool.Reap returns up to n candidates in the
mempool's selection order without removing them. -/
def mempoolReap (pool : List Bytes) (n : Nat) : List Bytes := pool.take n

/-- Modelled from the spec: Mempool.Update removes exactly the listed entries
from the mempool. -/
def mempoolUpdate (pool : List Bytes) (txs : List Bytes) : List Bytes :=
  pool.filter (fun t => !(txs.contains t))

/-- A ledger node: the ledger state together with its mempool. -/
structure Node where
  state : LedgerState
  mempool : List Bytes
deriving DecidableEq, BEq, Repr

/-- Translated from ledger.go signTransaction: signs the transaction's sign
bytes (chain ID plus transaction payload) with the consensus private key. -/
def txSignBytes (chainID : String) (tx : Tx) : Bytes :=
  (chainID.toList.map Char.toNat) ++ [0] ++
    (match tx with
     | Tx.coinbase p _ h _ => [0, p.address, h]
     | Tx.slash p a rs _ _ => [1, p.address, a, rs]
     | Tx.send _ _ f _ => [2, f])

/-- Translated from ledger.go signTransaction. -/
def signTransaction (env : Env) (ls : LedgerState) (tx : Tx) : Option Signature :=
  env.sign (txSignBytes ls.chainID tx)

/-- Translated from ledger.go shouldSkipCheckTx: transactions that only
validators may initiate (coinbase, slash) must be skipped. -/
def shouldSkipCheckTx (tx : Tx) : Bool :=
  match tx with
  | Tx.coinbase .. => true
  | Tx.slash .. => true
  | _ => false

/-- Translated from ledger.go resetState: sets the ledger state to the
designated (height, root), wrapping a failure in a generic error. -/
def resetState (s : LedgerState) (height : Nat) (rootHash : StateHash) :
    LedgerState × Result :=
  let (s', res) := s.resetToSnapshot height rootHash
  if res.isError then (s', Result.Error "Failed to set state root")
  else (s', Result.OK)

/-- Translated from ledger.go ScreenTx: decode, reject validator-only kinds
with CodeUnauthorizedTx, otherwise delegate to the executor against the
screened view.  The node is returned unchanged: screening never mutates
persistent ledger state. -/
def screenTx (env : Env) (node : Node) (rawTx : Bytes) : Result × Node :=
  match env.txFromBytes rawTx with
  | none => (Result.Error "Error decoding tx", node)
  | some tx =>
    if shouldSkipCheckTx tx then
      ((Result.Error "Unauthorized transaction, should skip").withErrorCode
        ErrCode.codeUnauthorizedTx, node)
    else
      (env.executor.screenTx node.state.screened tx, node)

/-- The proposer transaction input assembled in ledger.go addCoinbaseTx and
addSlashTxs. -/
def mkProposerTxIn (proposer : Validator) : TxInput :=
  ⟨proposer.address, some proposer.pubKey⟩

/-- The coinbase outputs assembled in ledger.go addCoinbaseTx by iterating
the reward map in enumeration order. -/
def mkCoinbaseTxOutputs (rewardEnum : List (Address × Coins)) : List TxOutput :=
  rewardEnum.map (fun p => ⟨p.1, p.2⟩)

/-- Translated from ledger.go addCoinbaseTx: build the coinbase transaction
from the reward map of the checked view, sign it with the proposer key and
append its bytes; on a signing or encoding failure the transaction is
dropped and the batch is returned unchanged. -/
def addCoinbaseTx (env : Env) (ls : LedgerState) (view : StoreView)
    (proposer : Validator) (validators : List Validator) (rawTxs : List Bytes) :
    List Bytes :=
  let proposerTxIn := mkProposerTxIn proposer
  let validatorAddresses := validators.map Validator.address
  let accountRewardEnum := env.rewardIter view validatorAddresses
  let coinbaseTxOutputs := mkCoinbaseTxOutputs accountRewardEnum
  let coinbaseTx := Tx.coinbase proposerTxIn coinbaseTxOutputs ls.height []
  match signTransaction env ls coinbaseTx with
  | none => rawTxs
  | some sig =>
    let signedTx := Tx.coinbase proposerTxIn coinbaseTxOutputs ls.height
      (setSig [] proposer.address sig)
    match env.txToBytes signedTx with
    | none => rawTxs
    | some coinbaseTxBytes => rawTxs ++ [coinbaseTxBytes]

/-- The per-intent body of the loop of ledger.go addSlashTxs: build, sign and
encode one slash transaction; on failure the intent is skipped. -/
def slashTxBytesOfIntent (env : Env) (ls : LedgerState) (proposer : Validator)
    (intent : SlashIntent) : Option Bytes :=
  let proposerTxIn := mkProposerTxIn proposer
  let slashTx := Tx.slash proposerTxIn intent.address intent.reserveSequence
    intent.proof []
  match signTransaction env ls slashTx with
  | none => none
  | some sig =>
    let signedTx := Tx.slash proposerTxIn intent.address intent.reserveSequence
      intent.proof (setSig [] proposer.address sig)
    env.txToBytes signedTx

/-- Translated from ledger.go addSlashTxs: one slash transaction per recorded
slash intent of the view (failed intents are skipped), then the intents are
cleared from the view. -/
def addSlashTxs (env : Env) (ls : LedgerState) (view : StoreView)
    (proposer : Validator) (rawTxs : List Bytes) : List Bytes × StoreView :=
  let out := view.slashIntents.foldl
    (fun acc intent =>
      match slashTxBytesOfIntent env ls proposer intent with
      | none => acc
      | some slashTxBytes => acc ++ [slashTxBytes])
    rawTxs
  (out, { view with slashIntents := [] })

/-- Translated from ledger.go addSpecialTransactions: resolve the proposer
and validator set for the current epoch, then add the coinbase transaction
followed by the slash transactions. -/
def addSpecialTransactions (env : Env) (ls : LedgerState) (view : StoreView)
    (rawTxs : List Bytes) : List Bytes × StoreView :=
  let epoch := env.epoch
  let proposer := env.getProposerForEpoch epoch
  let validators := env.getValidatorSetForEpoch epoch
  let rawTxs1 := addCoinbaseTx env ls view proposer validators rawTxs
  addSlashTxs env ls view proposer rawTxs1

/-- Translated from the candidate loop of ledger.go ProposeBlockTxs: each
candidate is decoded (failures skipped) and passed through Executor.CheckTx
against the threaded checked view (failures skipped); survivors are appended
to the block in order. -/
def checkTxLoop (env : Env) (acc : StoreView × List Bytes) (cands : List Bytes) :
    StoreView × List Bytes :=
  cands.foldl
    (fun acc cand =>
      match env.txFromBytes cand with
      | none => acc
      | some tx =>
        let (v', res) := env.executor.checkTx acc.1 tx
        if res.isError then (v', acc.2) else (v', acc.2 ++ [cand]))
    acc

/-- Translated from ledger.go ProposeBlockTxs: special transactions from the
checked view, then the reaped regular transactions; candidates failing to
decode or check are dropped; the returned root is the checked view's hash
after the loop; the reaped entries are drained from the mempool
unconditionally; the result is always OK. -/
def proposeBlockTxs (env : Env) (node : Node) :
    StateHash × List Bytes × Result × Node :=
  let view := node.state.checked
  let (rawTxCandidates, view1) := addSpecialTransactions env node.state view []
  let regularRawTxs := mempoolReap node.mempool MaxNumRegularTxsPerBlock
  let candidates := rawTxCandidates ++ regularRawTxs
  let (view2, blockRawTxs) := checkTxLoop env (view1, []) candidates
  let stateRootHash := view2.hash
  let newMempool := mempoolUpdate node.mempool regularRawTxs
  (stateRootHash, blockRawTxs, Result.OK,
    { state := { node.state with checked := view2 }, mempool := newMempool })

/-- Translated from the execution loop of ledger.go ApplyBlockTxs: decode and
execute each transaction in order against the threaded delivered view; a
decode failure yields a parse error, an execution failure yields the
executor's error; either failure also carries the partially mutated view. -/
def executeTxsGo (env : Env) : StoreView → List Bytes → Except (StoreView × Result) StoreView
  | v, [] => Except.ok v
  | v, rawTx :: rest =>
    match env.txFromBytes rawTx with
    | none => Except.error (v, Result.Error "Failed to parse transaction")
    | some tx =>
      let (v', res) := env.executor.executeTx v tx
      if res.isError then Except.error (v', res) else executeTxsGo env v' rest

/-- Translated from ledger.go ApplyBlockTxs: capture the entry (height, root)
of the delivered view; execute the batch in order, resetting to the captured
pair on any decode or execution failure; compare the post-batch root with the
expected root, resetting on mismatch; on success commit to persistent storage
and drain the applied entries from the mempool. -/
def applyBlockTxs (env : Env) (node : Node) (blockRawTxs : List Bytes)
    (expectedStateRoot : StateHash) : Result × Node :=
  let view := node.state.delivered
  let currHeight := view.height
  let currStateRoot := view.hash
  match executeTxsGo env view blockRawTxs with
  | Except.error (vBad, res) =>
    let st1 := { node.state with delivered := vBad }
    let (st2, _) := resetState st1 currHeight currStateRoot
    (res, { node with state := st2 })
  | Except.ok v' =>
    let newStateRoot := v'.hash
    if newStateRoot ≠ expectedStateRoot then
      let st1 := { node.state with delivered := v' }
      let (st2, _) := resetState st1 currHeight currStateRoot
      (Result.Error "State root mismatch", { node with state := st2 })
    else
      let st1 := { node.state with delivered := v' }
      let st2 := st1.commit
      (Result.OK, { state := st2, mempool := mempoolUpdate node.mempool blockRawTxs })

/-- The unsigned coinbase transaction assembled in ledger.go addCoinbaseTx
before signing. -/
def unsignedCoinbaseTx (env : Env) (ls : LedgerState) (view : StoreView)
    (proposer : Validator) (validators : List Validator) : Tx :=
  Tx.coinbase (mkProposerTxIn proposer)
    (mkCoinbaseTxOutputs (env.rewardIter view (validators.map Validator.address)))
    ls.height []

/-- The signed coinbase transaction assembled in ledger.go addCoinbaseTx. -/
def signedCoinbaseTx (env : Env) (ls : LedgerState) (view : StoreView)
    (proposer : Validator) (validators : List Validator) (sig : Signature) : Tx :=
  Tx.coinbase (mkProposerTxIn proposer)
    (mkCoinbaseTxOutputs (env.rewardIter view (validators.map Validator.address)))
    ls.height (setSig [] proposer.address sig)

/-- The bytes the coinbase path of ledger.go addCoinbaseTx appends when both
signing and encoding succeed. -/
def coinbaseTxBytesOpt (env : Env) (ls : LedgerState) (view : StoreView)
    (proposer : Validator) (validators : List Validator) : Option Bytes :=
  match signTransaction env ls (unsignedCoinbaseTx env ls view proposer validators) with
  | none => none
  | some sig => env.txToBytes (signedCoinbaseTx env ls view proposer validators sig)

/-- The specification's description of the proposal loop (spec section 4.3.2):
candidates that fail to decode or fail CheckTx are silently dropped, the
checked view being threaded left to right; survivors keep their order. -/
def specDropFailing (env : Env) : StoreView → List Bytes → StoreView × List Bytes
  | v, [] => (v, [])
  | v, c :: cs =>
    match env.txFromBytes c with
    | none => specDropFailing env v cs
    | some tx =>
      let p := env.executor.checkTx v tx
      let rest := specDropFailing env p.1 cs
      if p.2.isError then rest else (rest.1, c :: rest.2)

/-- The coinbase contribution to the candidate batch: one transaction when
signing and encoding succeed, none otherwise. -/
def coinbaseBatchPart (env : Env) (ls : LedgerState) (view : StoreView)
    (proposer : Validator) (validators : List Validator) : List Bytes :=
  match coinbaseTxBytesOpt env ls view proposer validators with
  | none => []
  | some b => [b]

/-- The proposal pipeline in the specification's phrasing: the coinbase
transaction, then one slash transaction per recorded intent, then the reaped
regular transactions, with failing candidates dropped against the cleared
checked view. -/
def proposeParts (env : Env) (node : Node) : StoreView × List Bytes :=
  specDropFailing env { node.state.checked with slashIntents := [] }
    ((coinbaseBatchPart env node.state node.state.checked
        (env.getProposerForEpoch env.epoch) (env.getValidatorSetForEpoch env.epoch) ++
      node.state.checked.slashIntents.filterMap
        (slashTxBytesOfIntent env node.state (env.getProposerForEpoch env.epoch))) ++
      mempoolReap node.mempool MaxNumRegularTxsPerBlock)

/-- The proposal pipeline as described by the specification when the coinbase
transaction is assembled successfully as the given bytes. -/
def proposeSpecParts (env : Env) (node : Node) (cbB : Bytes) : StoreView × List Bytes :=
  specDropFailing env { node.state.checked with slashIntents := [] }
    ((cbB :: node.state.checked.slashIntents.filterMap
        (slashTxBytesOfIntent env node.state (env.getProposerForEpoch env.epoch))) ++
      mempoolReap node.mempool MaxNumRegularTxsPerBlock)

/-- True when the raw bytes decode to a coinbase-kind transaction. -/
def decodesToCoinbase (env : Env) (b : Bytes) : Bool :=
  match env.txFromBytes b with
  | some t => t.kind == TxKind.coinbaseK
  | none => false

/-- Modelled from the spec: length-prefixed encoding of a byte list, one
piece of the canonical self-describing wire format of the types package. -/
def encodeBytesSeg (b : Bytes) : List Nat := b.length :: b

/-- Decoder for a length-prefixed byte list. -/
def decodeBytesSeg : List Nat → Option (Bytes × List Nat)
  | [] => none
  | n :: rest => if n ≤ rest.length then some (rest.take n, rest.drop n) else none

/-- Encoding of an optional public key as a single natural. -/
def encodeOptNat : Option Nat → Nat
  | none => 0
  | some k => k + 1

/-- Decoding of an optional public key. -/
def decodeOptNat : Nat → Option Nat
  | 0 => none
  | k + 1 => some k

/-- Modelled from the spec: wire encoding of a transaction input. -/
def encodeTxInput (i : TxInput) : List Nat := [i.address, encodeOptNat i.pubKey]

/-- Decoder for a transaction input. -/
def decodeTxInput : List Nat → Option (TxInput × List Nat)
  | a :: k :: rest => some (⟨a, decodeOptNat k⟩, rest)
  | _ => none

/-- Modelled from the spec: wire encoding of a transaction output. -/
def encodeTxOutput (o : TxOutput) : List Nat := [o.address, o.coins]

/-- Decoder for a transaction output. -/
def decodeTxOutput : List Nat → Option (TxOutput × List Nat)
  | a :: c :: rest => some (⟨a, c⟩, rest)
  | _ => none

/-- Modelled from the spec: wire encoding of one signature-map entry. -/
def encodeSigPair (p : Address × Signature) : List Nat := [p.1, p.2]

/-- Decoder for one signature-map entry. -/
def decodeSigPair : List Nat → Option ((Address × Signature) × List Nat)
  | a :: s :: rest => some ((a, s), rest)
  | _ => none

/-- Length-prefixed encoding of a list of elements. -/
def encodeListN (enc : α → List Nat) (xs : List α) : List Nat :=
  xs.length :: (xs.map enc).flatten

/-- Decoder for a known number of consecutive elements. -/
def decodeListN (dec : List Nat → Option (α × List Nat)) :
    Nat → List Nat → Option (List α × List Nat)
  | 0, l => some ([], l)
  | n + 1, l =>
    match dec l with
    | none => none
    | some (x, l1) =>
      match decodeListN dec n l1 with
      | none => none
      | some (xs, l2) => some (x :: xs, l2)

/-- Decoder for a length-prefixed list of elements. -/
def decodeListTop (dec : List Nat → Option (α × List Nat)) :
    List Nat → Option (List α × List Nat)
  | [] => none
  | n :: rest => decodeListN dec n rest

/-- Modelled from the spec: the canonical self-describing wire encoding of a
transaction (types.TxToBytes); a tag distinguishes the kind. -/
def encodeTx : Tx → List Nat
  | Tx.coinbase p outs h sigs =>
    0 :: (encodeTxInput p ++ encodeListN encodeTxOutput outs ++ [h] ++
      encodeListN encodeSigPair sigs)
  | Tx.slash p a rs proof sigs =>
    1 :: (encodeTxInput p ++ [a, rs] ++ encodeBytesSeg proof ++
      encodeListN encodeSigPair sigs)
  | Tx.send ins outs f sigs =>
    2 :: (encodeListN encodeTxInput ins ++ encodeListN encodeTxOutput outs ++
      [f] ++ encodeListN encodeSigPair sigs)

/-- Modelled from the spec: decoder for the transaction wire format
(types.TxFromBytes), inverse to the encoder. -/
def decodeTx : List Nat → Option (Tx × List Nat)
  | 0 :: rest =>
    match decodeTxInput rest with
    | none => none
    | some (p, l1) =>
      match decodeListTop decodeTxOutput l1 with
      | none => none
      | some (outs, l2) =>
        match l2 with
        | h :: l3 =>
          match decodeListTop decodeSigPair l3 with
          | none => none
          | some (sigs, l4) => some (Tx.coinbase p outs h sigs, l4)
        | [] => none
  | 1 :: rest =>
    match decodeTxInput rest with
    | none => none
    | some (p, l1) =>
      match l1 with
      | a :: rs :: l2 =>
        match decodeBytesSeg l2 with
        | none => none
        | some (proof, l3) =>
          match decodeListTop decodeSigPair l3 with
          | none => none
          | some (sigs, l4) => some (Tx.slash p a rs proof sigs, l4)
      | _ => none
  | 2 :: rest =>
    match decodeListTop decodeTxInput rest with
    | none => none
    | some (ins, l1) =>
      match decodeListTop decodeTxOutput l1 with
      | none => none
      | some (outs, l2) =>
        match l2 with
        | f :: l3 =>
          match decodeListTop decodeSigPair l3 with
          | none => none
          | some (sigs, l4) => some (Tx.send ins outs f sigs, l4)
        | [] => none
  | _ => none

/-- Modelled from the spec: types.TxToBytes as used by the ledger façade. -/
def txToBytesC (t : Tx) : Option Bytes := some (encodeTx t)

/-- Modelled from the spec: types.TxFromBytes as used by the ledger façade —
the bytes must hold exactly one transaction. -/
def txFromBytesC (b : Bytes) : Option Tx :=
  match decodeTx b with
  | some (t, []) => some t
  | _ => none

/-- Modelled from the spec: a block header as referenced by a vote; only an
injective fingerprint of its content matters here. -/
structure BlockHeader where
  parent : Nat
  height : Nat
deriving DecidableEq, BEq, Repr

/-- Modelled from the spec: the hash of a block header, an injective
commitment to its contents. -/
def BlockHeader.hashBH (b : BlockHeader) : Nat := Nat.pair b.parent b.height

/-- Modelled from the spec: core.Vote — a (block header, voter id, epoch)
triple. -/
structure Vote where
  block : BlockHeader
  id : String
  epoch : Nat
deriving DecidableEq, BEq, Repr

/-- Modelled from the spec: core.VoteSet.AddVote — the set is keyed by voter
id with last-write-wins by epoch: a second vote by the same voter with a
strictly greater epoch replaces the earlier one, otherwise it is dropped. -/
def addVote (vs : List Vote) (v : Vote) : List Vote :=
  match vs with
  | [] => [v]
  | w :: rest =>
    if w.id = v.id then
      if w.epoch < v.epoch then v :: rest else w :: rest
    else
      w :: addVote rest v

/-- Alice's first demonstration vote, at epoch 13. -/
def aliceVote1 : Vote := ⟨⟨0, 1⟩, "Alice", 13⟩

/-- Alice's second demonstration vote, at epoch 20. -/
def aliceVote2 : Vote := ⟨⟨1, 2⟩, "Alice", 20⟩

/-- Bob's demonstration vote, at epoch 20. -/
def bobVote : Vote := ⟨⟨0, 1⟩, "Bob", 20⟩

/-- A demonstration vote sequence, after the consensus state test: Alice
votes at epoch 13, Alice again at epoch 20, Bob at epoch 20. -/
def demoVotes : List Vote := [aliceVote1, aliceVote2, bobVote]

/-- The vote set accumulated from a sequence of votes. -/
def voteSetOf (votes : List Vote) : List Vote := votes.foldl addVote []

/-- The entries of voter i. -/
def byId (i : String) (v : Vote) : Bool := decide (v.id = i)

/-- The maximum epoch seen among the votes of voter i (zero when there are
none). -/
def maxEpochFor : List Vote → String → Nat
  | [], _ => 0
  | w :: rest, i =>
    if w.id = i then Nat.max w.epoch (maxEpochFor rest i) else maxEpochFor rest i

/-- Modelled from the spec: wire encoding of a string as length-prefixed
character codes. -/
def encodeString (s : String) : List Nat :=
  s.toList.length :: s.toList.map Char.toNat

/-- Decoder for a length-prefixed string. -/
def decodeString : List Nat → Option (String × List Nat)
  | [] => none
  | n :: rest =>
    if n ≤ rest.length then
      some (String.mk ((rest.take n).map Char.ofNat), rest.drop n)
    else none

/-- Modelled from the spec: wire encoding of a block header. -/
def encodeHeader (b : BlockHeader) : List Nat := [b.parent, b.height]

/-- Decoder for a block header. -/
def decodeHeader : List Nat → Option (BlockHeader × List Nat)
  | p :: h :: rest => some (⟨p, h⟩, rest)
  | _ => none

/-- Modelled from the spec: the canonical wire encoding of a vote. -/
def encodeVote (v : Vote) : List Nat :=
  encodeHeader v.block ++ encodeString v.id ++ [v.epoch]

/-- Decoder for a vote. -/
def decodeVote (l : List Nat) : Option (Vote × List Nat) :=
  match decodeHeader l with
  | none => none
  | some (b, l1) =>
    match decodeString l1 with
    | none => none
    | some (i, l2) =>
      match l2 with
      | e :: l3 => some (⟨b, i, e⟩, l3)
      | [] => none

/-- Modelled from the spec: the canonical wire encoding of a vote set. -/
def encodeVoteSet (vs : List Vote) : List Nat := encodeListN encodeVote vs

/-- Modelled from the spec: decoder of a vote set, inverse to the encoder —
the bytes must hold exactly one vote set. -/
def decodeVoteSet (l : List Nat) : Option (List Vote) :=
  match decodeListTop decodeVote l with
  | some (vs, []) => some vs
  | _ => none

/-- A demonstration store view with empty contents. -/
def demoView : StoreView := ⟨[], 0, []⟩

/-- A demonstration executor that accepts every transaction and leaves the
view unchanged. -/
def demoExecutorOK : Executor :=
  ⟨fun _ _ => Result.OK, fun v _ => (v, Result.OK), fun v _ => (v, Result.OK)⟩

/-- A demonstration validator. -/
def demoValidator : Validator := ⟨5, 50⟩

/-- A demonstration environment: one validator who is also the proposer, a
total signer, the concrete codec, and a two-entry reward map enumerated in
one particular order. -/
def demoEnv : Env where
  epoch := 1
  getProposerForEpoch := fun _ => demoValidator
  getValidatorSetForEpoch := fun _ => [demoValidator]
  sign := fun _ => some 7
  executor := demoExecutorOK
  txFromBytes := txFromBytesC
  txToBytes := txToBytesC
  rewardIter := fun _ _ => [(1, 5), (2, 7)]

/-- The same environment with the reward map enumerated in the other order,
as the Go runtime is free to do on another run or another node. -/
def demoEnvSwapped : Env := { demoEnv with rewardIter := fun _ _ => [(2, 7), (1, 5)] }

/-- The demonstration environment with a failing signer. -/
def demoEnvNoSign : Env := { demoEnv with sign := fun _ => none }

/-- A demonstration ledger state whose delivered view is among the committed
snapshots. -/
def demoState : LedgerState := ⟨"chain", demoView, demoView, demoView, demoView, [demoView], 3⟩

/-- A demonstration node with an empty mempool. -/
def demoNode : Node := ⟨demoState, []⟩

/-- A demonstration node with two raw transactions in the mempool. -/
def demoNodePool : Node := ⟨demoState, [[9], [8]]⟩

/-- A demonstration user transaction. -/
def demoSend : Tx := Tx.send [] [] 0 []

/-- A demonstration coinbase transaction carrying an arbitrary signature. -/
def demoCoinbaseSigned : Tx := Tx.coinbase ⟨5, some 50⟩ [] 0 [(5, 999)]

/-
Theorems.  The development below first establishes round-trip facts for the
wire codecs, then the vote-set claims, then the ledger-façade claims.
-/

theorem decodeListN_encode {α : Type} (enc : α → List Nat)
    (dec : List Nat → Option (α × List Nat))
    (h : ∀ x r, dec (enc x ++ r) = some (x, r)) (xs : List α) :
    ∀ r : List Nat, decodeListN dec xs.length ((xs.map enc).flatten ++ r) = some (xs, r) := by
  induction xs with
  | nil => intro r; simp [decodeListN]
  | cons x xs ih =>
    intro r
    have hsplit : ((x :: xs).map enc).flatten ++ r = enc x ++ ((xs.map enc).flatten ++ r) := by
      simp
    rw [List.length_cons, hsplit]
    simp [decodeListN, h, ih r]

theorem decodeListTop_encode {α : Type} (enc : α → List Nat)
    (dec : List Nat → Option (α × List Nat))
    (h : ∀ x r, dec (enc x ++ r) = some (x, r)) (xs : List α) (r : List Nat) :
    decodeListTop dec (encodeListN enc xs ++ r) = some (xs, r) := by
  have : encodeListN enc xs ++ r = xs.length :: ((xs.map enc).flatten ++ r) := by
    simp [encodeListN]
  rw [this]
  exact decodeListN_encode enc dec h xs r

theorem decodeString_encode (s : String) (r : List Nat) :
    decodeString (encodeString s ++ r) = some (s, r) := by
  have hsplit : encodeString s ++ r =
      s.toList.length :: (s.toList.map Char.toNat ++ r) := by
    simp [encodeString]
  have hlen : s.toList.length ≤ (s.toList.map Char.toNat ++ r).length := by
    simp
  have htake : (s.toList.map Char.toNat ++ r).take s.toList.length =
      s.toList.map Char.toNat :=
    List.take_left' (by simp)
  have hdrop : (s.toList.map Char.toNat ++ r).drop s.toList.length = r :=
    List.drop_left' (by simp)
  rw [hsplit]
  simp only [decodeString, hlen, if_pos, htake, hdrop]
  have hchars : (s.toList.map Char.toNat).map Char.ofNat = s.toList := by
    rw [List.map_map]
    have : (Char.ofNat ∘ Char.toNat) = id := by
      funext c; simp [Function.comp, Char.ofNat_toNat]
    rw [this, List.map_id]
  rw [hchars]
  have : String.mk s.toList = s := by
    cases s; rfl
  rw [this]

theorem decodeHeader_encode (b : BlockHeader) (r : List Nat) :
    decodeHeader (encodeHeader b ++ r) = some (b, r) := by
  cases b; rfl

theorem decodeVote_encode (v : Vote) (r : List Nat) :
    decodeVote (encodeVote v ++ r) = some (v, r) := by
  have hsplit : encodeVote v ++ r =
      encodeHeader v.block ++ (encodeString v.id ++ ([v.epoch] ++ r)) := by
    simp [encodeVote]
  rw [hsplit]
  simp only [decodeVote, decodeHeader_encode, decodeString_encode]
  rfl

/-- C9: decoding the canonical encoding of a vote set yields the vote set
back, preserving the hashes of the embedded block headers and the per-voter
entries. -/
theorem voteSet_encoding_roundtrip (vs : List Vote) :
    decodeVoteSet (encodeVoteSet vs) = some vs
    ∧ ((decodeVoteSet (encodeVoteSet vs)).getD []).map (fun v => v.block.hashBH) =
        vs.map (fun v => v.block.hashBH)
    ∧ ∀ i : String, ((decodeVoteSet (encodeVoteSet vs)).getD []).filter (byId i) =
        vs.filter (byId i) := by
  have hrt : decodeVoteSet (encodeVoteSet vs) = some vs := by
    have h1 : decodeListTop decodeVote (encodeListN encodeVote vs ++ []) = some (vs, []) :=
      decodeListTop_encode encodeVote decodeVote decodeVote_encode vs []
    rw [List.append_nil] at h1
    simp [decodeVoteSet, encodeVoteSet, h1]
  refine ⟨hrt, ?_, ?_⟩
  · rw [hrt]; rfl
  · intro i; rw [hrt]; rfl

theorem decodeTxInput_encode (i : TxInput) (r : List Nat) :
    decodeTxInput (encodeTxInput i ++ r) = some (i, r) := by
  cases i with
  | mk a k => cases k <;> rfl

theorem decodeTxOutput_encode (o : TxOutput) (r : List Nat) :
    decodeTxOutput (encodeTxOutput o ++ r) = some (o, r) := by
  cases o; rfl

theorem decodeSigPair_encode (p : Address × Signature) (r : List Nat) :
    decodeSigPair (encodeSigPair p ++ r) = some (p, r) := by
  cases p; rfl

theorem decodeBytesSeg_encode (b : Bytes) (r : List Nat) :
    decodeBytesSeg (encodeBytesSeg b ++ r) = some (b, r) := by
  have hsplit : encodeBytesSeg b ++ r = b.length :: (b ++ r) := by
    simp [encodeBytesSeg]
  rw [hsplit]
  have hlen : b.length ≤ (b ++ r).length := by simp
  simp only [decodeBytesSeg, hlen, if_pos, List.take_left' rfl, List.drop_left' rfl]

theorem decodeTx_encode (t : Tx) (r : List Nat) :
    decodeTx (encodeTx t ++ r) = some (t, r) := by
  cases t with
  | coinbase p outs h sigs =>
    have hsplit : encodeTx (Tx.coinbase p outs h sigs) ++ r =
        0 :: (encodeTxInput p ++ (encodeListN encodeTxOutput outs ++
          (h :: (encodeListN encodeSigPair sigs ++ r)))) := by
      simp [encodeTx]
    rw [hsplit]
    simp only [decodeTx, decodeTxInput_encode,
      decodeListTop_encode encodeTxOutput decodeTxOutput decodeTxOutput_encode,
      decodeListTop_encode encodeSigPair decodeSigPair decodeSigPair_encode]
  | slash p a rs proof sigs =>
    have hsplit : encodeTx (Tx.slash p a rs proof sigs) ++ r =
        1 :: (encodeTxInput p ++ (a :: rs :: (encodeBytesSeg proof ++
          (encodeListN encodeSigPair sigs ++ r)))) := by
      simp [encodeTx]
    rw [hsplit]
    simp only [decodeTx, decodeTxInput_encode, decodeBytesSeg_encode,
      decodeListTop_encode encodeSigPair decodeSigPair decodeSigPair_encode]
  | send ins outs f sigs =>
    have hsplit : encodeTx (Tx.send ins outs f sigs) ++ r =
        2 :: (encodeListN encodeTxInput ins ++ (encodeListN encodeTxOutput outs ++
          (f :: (encodeListN encodeSigPair sigs ++ r)))) := by
      simp [encodeTx]
    rw [hsplit]
    simp only [decodeTx,
      decodeListTop_encode encodeTxInput decodeTxInput decodeTxInput_encode,
      decodeListTop_encode encodeTxOutput decodeTxOutput decodeTxOutput_encode,
      decodeListTop_encode encodeSigPair decodeSigPair decodeSigPair_encode]

theorem txCodec_roundtrip (t : Tx) (b : Bytes) :
    txToBytesC t = some b → txFromBytesC b = some t := by
  intro h
  have hb : b = encodeTx t := by
    simpa [txToBytesC] using h.symm
  subst hb
  have hdec : decodeTx (encodeTx t) = some (t, []) := by
    have := decodeTx_encode t []
    rwa [List.append_nil] at this
  simp [txFromBytesC, hdec]

theorem filter_single_split {α : Type} (p : α → Bool) (l : List α) (e : α)
    (h : l.filter p = [e]) :
    ∃ l1 l2, l = l1 ++ e :: l2 ∧ l1.filter p = [] ∧ l2.filter p = [] ∧ p e = true := by
  induction l with
  | nil => simp at h
  | cons a l ih =>
    by_cases hpa : p a
    · rw [List.filter_cons_of_pos hpa] at h
      injection h with h1 h2
      subst h1
      exact ⟨[], l, rfl, rfl, h2, hpa⟩
    · rw [List.filter_cons_of_neg hpa] at h
      obtain ⟨l1, l2, hsplit, h1, h2, hpe⟩ := ih h
      subst hsplit
      refine ⟨a :: l1, l2, rfl, ?_, h2, hpe⟩
      rw [List.filter_cons_of_neg hpa, h1]

theorem addVote_of_no_entry (s : List Vote) (v : Vote)
    (h : ∀ w ∈ s, w.id ≠ v.id) : addVote s v = s ++ [v] := by
  induction s with
  | nil => rfl
  | cons w rest ih =>
    have hw : w.id ≠ v.id := h w (by simp)
    simp only [addVote, if_neg hw, List.cons_append, List.cons.injEq, true_and]
    exact ih (fun u hu => h u (by simp [hu]))

theorem addVote_replace (l1 l2 : List Vote) (w v : Vote)
    (h1 : ∀ u ∈ l1, u.id ≠ v.id) (hw : w.id = v.id) :
    addVote (l1 ++ w :: l2) v = l1 ++ (if w.epoch < v.epoch then v else w) :: l2 := by
  induction l1 with
  | nil =>
    simp only [List.nil_append, addVote, if_pos hw]
    by_cases he : w.epoch < v.epoch <;> simp [he]
  | cons a l1 ih =>
    have ha : a.id ≠ v.id := h1 a (by simp)
    simp only [List.cons_append, addVote, if_neg ha, List.cons.injEq, true_and]
    exact ih (fun u hu => h1 u (by simp [hu]))

theorem maxEpochFor_concat (l : List Vote) (v : Vote) (i : String) :
    maxEpochFor (l ++ [v]) i =
      if v.id = i then Nat.max (maxEpochFor l i) v.epoch else maxEpochFor l i := by
  induction l with
  | nil =>
    by_cases hv : v.id = i <;> simp [maxEpochFor, hv]
  | cons w rest ih =>
    by_cases hw : w.id = i <;> by_cases hv : v.id = i <;>
      simp [maxEpochFor, hw, hv, ih, Nat.max_assoc]

theorem maxEpochFor_zero_of_none (l : List Vote) (i : String)
    (h : ∀ w ∈ l, w.id ≠ i) : maxEpochFor l i = 0 := by
  induction l with
  | nil => rfl
  | cons w rest ih =>
    have hw : w.id ≠ i := h w (by simp)
    simp only [maxEpochFor, if_neg hw]
    exact ih (fun u hu => h u (by simp [hu]))

theorem voteSetOf_concat (l : List Vote) (v : Vote) :
    voteSetOf (l ++ [v]) = addVote (voteSetOf l) v := by
  simp [voteSetOf, List.foldl_append]

/-- The representation invariant relating a vote set to the sequence of votes
it was built from: per voter id the set holds no entry when the voter never
voted, and exactly one entry — a vote of that voter carrying the maximum
epoch seen — otherwise. -/
def WfVoteSet (S l : List Vote) : Prop :=
  ∀ i : String,
    ((∀ w ∈ l, w.id ≠ i) → S.filter (byId i) = [])
    ∧ ((∃ w ∈ l, w.id = i) → ∃ e, S.filter (byId i) = [e]
        ∧ e ∈ l ∧ e.id = i ∧ e.epoch = maxEpochFor l i)

theorem addVote_wf (S l : List Vote) (v : Vote) (h : WfVoteSet S l) :
    WfVoteSet (addVote S v) (l ++ [v]) := by
  by_cases hA : ∃ w ∈ l, w.id = v.id
  · obtain ⟨e, hfe, heL, heid, hpe⟩ := (h v.id).2 hA
    obtain ⟨l1, l2, hSsplit, hf1, hf2, hbe⟩ := filter_single_split _ _ _ hfe
    have h1 : ∀ u ∈ l1, u.id ≠ v.id := by
      intro u hu
      have := List.filter_eq_nil_iff.mp hf1 u hu
      simpa [byId] using this
    subst hSsplit
    rw [addVote_replace l1 l2 e v h1 heid]
    have hxid : (if e.epoch < v.epoch then v else e).id = v.id := by
      split
      · rfl
      · exact heid
    have hxmem : (if e.epoch < v.epoch then v else e) ∈ l ++ [v] := by
      split
      · simp
      · simp [heL]
    have hxep : (if e.epoch < v.epoch then v else e).epoch = Nat.max e.epoch v.epoch := by
      by_cases hev : e.epoch < v.epoch
      · simp [hev, Nat.max_eq_right (Nat.le_of_lt hev)]
      · simp [hev, Nat.max_eq_left (Nat.le_of_not_lt hev)]
    intro i
    constructor
    · intro hnone
      have hvi : v.id ≠ i := hnone v (by simp)
      have hli : ∀ w ∈ l, w.id ≠ i := fun w hw => hnone w (by simp [hw])
      have hSf : (l1 ++ e :: l2).filter (byId i) = [] := ((h i).1 hli)
      rw [List.filter_append] at hSf
      obtain ⟨hn1, hn2⟩ := List.append_eq_nil.mp hSf
      have hne : byId i e = false := by
        simp only [byId, decide_eq_false_iff_not]
        rw [heid]; exact hvi
      rw [List.filter_cons_of_neg (by simp [hne])] at hn2
      have hnx : byId i (if e.epoch < v.epoch then v else e) = false := by
        simp only [byId, decide_eq_false_iff_not]
        rw [hxid]; exact hvi
      rw [List.filter_append, hn1, List.filter_cons_of_neg (by simp [hnx]), hn2]
      rfl
    · intro hex
      by_cases hvi : v.id = i
      · subst hvi
        have hfx : byId v.id (if e.epoch < v.epoch then v else e) = true := by
          simp [byId, hxid]
        have hmax : maxEpochFor (l ++ [v]) v.id =
            Nat.max (maxEpochFor l v.id) v.epoch := by
          rw [maxEpochFor_concat]; simp
        refine ⟨if e.epoch < v.epoch then v else e, ?_, hxmem, hxid, ?_⟩
        · rw [List.filter_append, hf1, List.filter_cons_of_pos hfx, hf2]
          rfl
        · rw [hxep, hmax, hpe]
      · obtain ⟨w, hwl, hwi⟩ := hex
        have hwl' : w ∈ l := by
          rcases List.mem_append.mp hwl with h' | h'
          · exact h'
          · exfalso
            have : w = v := by simpa using h'
            subst this
            exact hvi hwi
        obtain ⟨e', hfe', he'L, he'id, he'ep⟩ := (h i).2 ⟨w, hwl', hwi⟩
        have hne : byId i e = false := by
          simp only [byId, decide_eq_false_iff_not]
          rw [heid]; exact hvi
        have hnx : byId i (if e.epoch < v.epoch then v else e) = false := by
          simp only [byId, decide_eq_false_iff_not]
          rw [hxid]; exact hvi
        have hfe'' : (l1 ++ (if e.epoch < v.epoch then v else e) :: l2).filter (byId i) = [e'] := by
          rw [List.filter_append, List.filter_cons_of_neg (by simp [hnx])]
          rw [List.filter_append, List.filter_cons_of_neg (by simp [hne])] at hfe'
          exact hfe'
        have hmax : maxEpochFor (l ++ [v]) i = maxEpochFor l i := by
          rw [maxEpochFor_concat, if_neg hvi]
        exact ⟨e', hfe'', by simp [he'L], he'id, by rw [hmax]; exact he'ep⟩
  · push_neg at hA
    have hnoS : ∀ w ∈ S, w.id ≠ v.id := by
      intro w hw hcon
      have hfS : S.filter (byId v.id) = [] := (h v.id).1 (fun u hu => hA u hu)
      have := List.filter_eq_nil_iff.mp hfS w hw
      simp [byId, hcon] at this
    rw [addVote_of_no_entry S v hnoS]
    intro i
    constructor
    · intro hnone
      have hvi : v.id ≠ i := hnone v (by simp)
      have hli : ∀ w ∈ l, w.id ≠ i := fun w hw => hnone w (by simp [hw])
      rw [List.filter_append, (h i).1 hli, List.filter_cons_of_neg (by simp [byId, hvi])]
      rfl
    · intro hex
      by_cases hvi : v.id = i
      · subst hvi
        have hli : ∀ w ∈ l, w.id ≠ v.id := fun w hw => hA w hw
        have hmax0 : maxEpochFor l v.id = 0 := maxEpochFor_zero_of_none l v.id hli
        have hmax : maxEpochFor (l ++ [v]) v.id = v.epoch := by
          rw [maxEpochFor_concat]; simp [hmax0]
        refine ⟨v, ?_, by simp, rfl, by rw [hmax]⟩
        rw [List.filter_append, (h v.id).1 hli,
          List.filter_cons_of_pos (by simp [byId])]
        rfl
      · obtain ⟨w, hwl, hwi⟩ := hex
        have hwl' : w ∈ l := by
          rcases List.mem_append.mp hwl with h' | h'
          · exact h'
          · exfalso
            have : w = v := by simpa using h'
            subst this
            exact hvi hwi
        obtain ⟨e', hfe', he'L, he'id, he'ep⟩ := (h i).2 ⟨w, hwl', hwi⟩
        have hmax : maxEpochFor (l ++ [v]) i = maxEpochFor l i := by
          rw [maxEpochFor_concat, if_neg hvi]
        refine ⟨e', ?_, by simp [he'L], he'id, by rw [hmax]; exact he'ep⟩
        rw [List.filter_append, hfe', List.filter_cons_of_neg (by simp [byId, hvi])]
        rfl

theorem voteSetOf_wf (votes : List Vote) : WfVoteSet (voteSetOf votes) votes := by
  induction votes using List.reverseRecOn with
  | nil =>
    intro i
    constructor
    · intro _; simp [voteSetOf]
    · rintro ⟨w, hw, _⟩; simp at hw
  | append_singleton l v ih =>
    rw [voteSetOf_concat]
    exact addVote_wf _ l v ih

/-- C8: for any sequence of votes, the accumulated vote set holds exactly one
entry per voter id that voted, that entry is one of the voter's votes and
carries the maximum epoch seen for that voter; a second vote by the same
voter with a strictly greater epoch replaces the earlier entry and one with
an equal or smaller epoch is dropped. -/
theorem voteSet_last_write_wins (votes : List Vote) (i : String)
    (l1 l2 : List Vote) (v w : Vote) :
    ((∀ u ∈ votes, u.id ≠ i) → (voteSetOf votes).filter (byId i) = [])
    ∧ ((∃ u ∈ votes, u.id = i) → ∃ e, (voteSetOf votes).filter (byId i) = [e]
        ∧ e ∈ votes ∧ e.id = i ∧ e.epoch = maxEpochFor votes i)
    ∧ ((∀ u ∈ l1, u.id ≠ v.id) → w.id = v.id →
        addVote (l1 ++ w :: l2) v = l1 ++ (if w.epoch < v.epoch then v else w) :: l2) := by
  refine ⟨(voteSetOf_wf votes i).1, (voteSetOf_wf votes i).2, ?_⟩
  intro h1 hw
  exact addVote_replace l1 l2 w v h1 hw

/-- Witness for C8 on the consensus-state test data: Alice voted twice, the
set keeps a single Alice entry at the maximum epoch, and the strictly greater
epoch 20 replaced the earlier epoch 13 entry. -/
theorem voteSet_last_write_wins_witness :
    (∃ e, (voteSetOf demoVotes).filter (byId "Alice") = [e]
      ∧ e ∈ demoVotes ∧ e.id = "Alice" ∧ e.epoch = maxEpochFor demoVotes "Alice")
    ∧ addVote ([] ++ aliceVote1 :: []) aliceVote2 =
        [] ++ (if aliceVote1.epoch < aliceVote2.epoch then aliceVote2 else aliceVote1) :: [] :=
  ⟨(voteSet_last_write_wins demoVotes "Alice" [] [] aliceVote2 aliceVote1).2.1
      ⟨aliceVote1, by simp [demoVotes], rfl⟩,
   (voteSet_last_write_wins demoVotes "Alice" [] [] aliceVote2 aliceVote1).2.2
      (by simp) rfl⟩

theorem addCoinbaseTx_eq (env : Env) (ls : LedgerState) (view : StoreView)
    (proposer : Validator) (validators : List Validator) (rawTxs : List Bytes) :
    addCoinbaseTx env ls view proposer validators rawTxs =
      (match coinbaseTxBytesOpt env ls view proposer validators with
       | none => rawTxs
       | some b => rawTxs ++ [b]) := by
  simp only [addCoinbaseTx, coinbaseTxBytesOpt, unsignedCoinbaseTx, signedCoinbaseTx]
  cases hs : signTransaction env ls (Tx.coinbase (mkProposerTxIn proposer)
      (mkCoinbaseTxOutputs (env.rewardIter view (validators.map Validator.address)))
      ls.height []) with
  | none => rfl
  | some sig =>
    cases ht : env.txToBytes (Tx.coinbase (mkProposerTxIn proposer)
        (mkCoinbaseTxOutputs (env.rewardIter view (validators.map Validator.address)))
        ls.height (setSig [] proposer.address sig)) with
    | none => rfl
    | some b => rfl

theorem foldl_appendMap {α : Type} (f : α → Option Bytes) (l : List α) :
    ∀ raw : List Bytes,
      l.foldl (fun acc i => match f i with | none => acc | some b => acc ++ [b]) raw =
        raw ++ l.filterMap f := by
  induction l with
  | nil => intro raw; simp
  | cons a l ih =>
    intro raw
    cases hf : f a <;> simp [List.foldl_cons, hf, ih, List.filterMap_cons]

theorem addSlashTxs_eq (env : Env) (ls : LedgerState) (view : StoreView)
    (proposer : Validator) (rawTxs : List Bytes) :
    addSlashTxs env ls view proposer rawTxs =
      (rawTxs ++ view.slashIntents.filterMap (slashTxBytesOfIntent env ls proposer),
       { view with slashIntents := [] }) := by
  simp only [addSlashTxs]
  rw [foldl_appendMap]

theorem checkTxLoop_eq (env : Env) (cands : List Bytes) :
    ∀ (v : StoreView) (acc : List Bytes),
      checkTxLoop env (v, acc) cands =
        ((specDropFailing env v cands).1, acc ++ (specDropFailing env v cands).2) := by
  induction cands with
  | nil => intro v acc; simp [checkTxLoop, specDropFailing]
  | cons c cs ih =>
    intro v acc
    cases hd : env.txFromBytes c with
    | none =>
      have hstep : checkTxLoop env (v, acc) (c :: cs) = checkTxLoop env (v, acc) cs := by
        simp [checkTxLoop, List.foldl_cons, hd]
      rw [hstep, ih v acc]
      simp [specDropFailing, hd]
    | some tx =>
      cases hres : (env.executor.checkTx v tx).2.isError with
      | true =>
        have hstep : checkTxLoop env (v, acc) (c :: cs) =
            checkTxLoop env ((env.executor.checkTx v tx).1, acc) cs := by
          simp [checkTxLoop, List.foldl_cons, hd, hres]
        rw [hstep, ih _ acc]
        simp [specDropFailing, hd, hres]
      | false =>
        have hstep : checkTxLoop env (v, acc) (c :: cs) =
            checkTxLoop env ((env.executor.checkTx v tx).1, acc ++ [c]) cs := by
          simp [checkTxLoop, List.foldl_cons, hd, hres]
        rw [hstep, ih _ (acc ++ [c])]
        simp [specDropFailing, hd, hres]

theorem propose_structure (env : Env) (node : Node) :
    proposeBlockTxs env node =
      ((proposeParts env node).1.hash, (proposeParts env node).2, Result.OK,
       ⟨{ node.state with checked := (proposeParts env node).1 },
        mempoolUpdate node.mempool (mempoolReap node.mempool MaxNumRegularTxsPerBlock)⟩) := by
  have hcbeq : addCoinbaseTx env node.state node.state.checked
      (env.getProposerForEpoch env.epoch) (env.getValidatorSetForEpoch env.epoch) [] =
      coinbaseBatchPart env node.state node.state.checked
        (env.getProposerForEpoch env.epoch) (env.getValidatorSetForEpoch env.epoch) := by
    rw [addCoinbaseTx_eq]
    cases h : coinbaseTxBytesOpt env node.state node.state.checked
        (env.getProposerForEpoch env.epoch) (env.getValidatorSetForEpoch env.epoch) with
    | none => simp [coinbaseBatchPart, h]
    | some b => simp [coinbaseBatchPart, h]
  simp only [proposeBlockTxs, addSpecialTransactions, mempoolReap]
  rw [hcbeq, addSlashTxs_eq]
  rw [checkTxLoop_eq]
  simp [proposeParts, mempoolReap]

theorem filterMap_length_of_isSome {α β : Type} (f : α → Option β) (l : List α)
    (h : ∀ a ∈ l, (f a).isSome = true) : (l.filterMap f).length = l.length := by
  induction l with
  | nil => rfl
  | cons a l ih =>
    cases hf : f a with
    | none =>
      have ha := h a (by simp)
      rw [hf] at ha
      simp at ha
    | some b =>
      simp [List.filterMap_cons, hf, ih (fun x hx => h x (by simp [hx]))]

/-- C2: the proposal batch is assembled as the coinbase transaction, then one
slash transaction per recorded slash intent of the checked view (the intents
being cleared), then the reaped regular transactions in reap order, every
candidate that fails to decode or fails CheckTx being silently dropped; the
returned root is the checked view's hash after the surviving candidates have
been checked, and the reaped entries are drained from the mempool. -/
theorem proposeBlockTxs_assembly (env : Env) (node : Node) (cbB : Bytes)
    (hcb : coinbaseTxBytesOpt env node.state node.state.checked
      (env.getProposerForEpoch env.epoch) (env.getValidatorSetForEpoch env.epoch) = some cbB)
    (hsl : ∀ i ∈ node.state.checked.slashIntents,
      (slashTxBytesOfIntent env node.state (env.getProposerForEpoch env.epoch) i).isSome = true) :
    proposeBlockTxs env node =
      ((proposeSpecParts env node cbB).1.hash, (proposeSpecParts env node cbB).2, Result.OK,
       ⟨{ node.state with checked := (proposeSpecParts env node cbB).1 },
        mempoolUpdate node.mempool (mempoolReap node.mempool MaxNumRegularTxsPerBlock)⟩)
    ∧ (node.state.checked.slashIntents.filterMap
        (slashTxBytesOfIntent env node.state (env.getProposerForEpoch env.epoch))).length =
      node.state.checked.slashIntents.length := by
  have hparts : proposeParts env node = proposeSpecParts env node cbB := by
    simp [proposeParts, proposeSpecParts, coinbaseBatchPart, hcb]
  constructor
  · rw [propose_structure, hparts]
  · exact filterMap_length_of_isSome _ _ hsl

/-- Witness for C2 at the demonstration environment: signing and encoding of
the coinbase succeed, there are no slash intents, and the proposal result is
OK as the theorem's conclusion states. -/
theorem proposeBlockTxs_assembly_witness :
    coinbaseTxBytesOpt demoEnv demoNode.state demoNode.state.checked
        (demoEnv.getProposerForEpoch demoEnv.epoch)
        (demoEnv.getValidatorSetForEpoch demoEnv.epoch) =
      some (encodeTx (signedCoinbaseTx demoEnv demoNode.state demoNode.state.checked
        (demoEnv.getProposerForEpoch demoEnv.epoch)
        (demoEnv.getValidatorSetForEpoch demoEnv.epoch) 7))
    ∧ (proposeBlockTxs demoEnv demoNode).2.2.1 = Result.OK := by
  have h := proposeBlockTxs_assembly demoEnv demoNode
    (encodeTx (signedCoinbaseTx demoEnv demoNode.state demoNode.state.checked
      (demoEnv.getProposerForEpoch demoEnv.epoch)
      (demoEnv.getValidatorSetForEpoch demoEnv.epoch) 7))
    rfl
    (by intro i hi; simp [demoNode, demoState, demoView] at hi)
  exact ⟨rfl, by rw [h.1]⟩

/-- C4: after any call of ProposeBlockTxs the reaped entries — including
candidates dropped from the returned batch — are removed from the mempool
unconditionally, and exactly the reaped entries are removed. -/
theorem proposeBlockTxs_drains_mempool (env : Env) (node : Node) :
    (proposeBlockTxs env node).2.2.2.mempool =
      mempoolUpdate node.mempool (mempoolReap node.mempool MaxNumRegularTxsPerBlock)
    ∧ (∀ t ∈ mempoolReap node.mempool MaxNumRegularTxsPerBlock,
        t ∉ (proposeBlockTxs env node).2.2.2.mempool)
    ∧ (∀ t, t ∈ (proposeBlockTxs env node).2.2.2.mempool ↔
        t ∈ node.mempool ∧ t ∉ mempoolReap node.mempool MaxNumRegularTxsPerBlock) := by
  have hm : (proposeBlockTxs env node).2.2.2.mempool =
      mempoolUpdate node.mempool (mempoolReap node.mempool MaxNumRegularTxsPerBlock) := by
    rw [propose_structure]
  have hmem : ∀ t, t ∈ mempoolUpdate node.mempool
      (mempoolReap node.mempool MaxNumRegularTxsPerBlock) ↔
      t ∈ node.mempool ∧ t ∉ mempoolReap node.mempool MaxNumRegularTxsPerBlock := by
    intro t
    simp [mempoolUpdate, List.mem_filter]
  refine ⟨hm, ?_, ?_⟩
  · intro t ht hmemb
    rw [hm] at hmemb
    exact ((hmem t).mp hmemb).2 ht
  · intro t
    rw [hm]
    exact hmem t

/-- Witness for C4: with two mempool entries both are reaped and neither
remains in the mempool after the proposal. -/
theorem proposeBlockTxs_drains_mempool_witness :
    ([9] : Bytes) ∈ mempoolReap demoNodePool.mempool MaxNumRegularTxsPerBlock
    ∧ ([9] : Bytes) ∉ (proposeBlockTxs demoEnv demoNodePool).2.2.2.mempool :=
  ⟨by decide,
   (proposeBlockTxs_drains_mempool demoEnv demoNodePool).2.1 [9] (by decide)⟩

/-- C10: ProposeBlockTxs always returns OK; a signing or encoding failure
silently omits the coinbase transaction from the batch, failed slash intents
are skipped individually, and the slash intents of the checked view are
cleared regardless. -/
theorem proposeBlockTxs_best_effort (env : Env) (node : Node) (ls : LedgerState)
    (view : StoreView) (proposer : Validator) (validators : List Validator)
    (rawTxs : List Bytes) :
    (proposeBlockTxs env node).2.2.1 = Result.OK
    ∧ (addSlashTxs env ls view proposer rawTxs).2.slashIntents = []
    ∧ (signTransaction env ls (unsignedCoinbaseTx env ls view proposer validators) = none →
        addCoinbaseTx env ls view proposer validators rawTxs = rawTxs)
    ∧ (∀ sig, signTransaction env ls (unsignedCoinbaseTx env ls view proposer validators) = some sig →
        env.txToBytes (signedCoinbaseTx env ls view proposer validators sig) = none →
        addCoinbaseTx env ls view proposer validators rawTxs = rawTxs)
    ∧ (addSlashTxs env ls view proposer rawTxs).1 =
        rawTxs ++ view.slashIntents.filterMap (slashTxBytesOfIntent env ls proposer) := by
  refine ⟨?_, ?_, ?_, ?_, ?_⟩
  · rw [propose_structure]
  · rw [addSlashTxs_eq]
  · intro hs
    rw [addCoinbaseTx_eq]
    simp [coinbaseTxBytesOpt, hs]
  · intro sig hs ht
    rw [addCoinbaseTx_eq]
    simp [coinbaseTxBytesOpt, hs, ht]
  · rw [addSlashTxs_eq]

/-- Witness for C10 with a failing signer: the proposal still returns OK and
the coinbase transaction is omitted from the batch. -/
theorem proposeBlockTxs_best_effort_witness :
    signTransaction demoEnvNoSign demoState
        (unsignedCoinbaseTx demoEnvNoSign demoState demoView demoValidator [demoValidator]) = none
    ∧ (proposeBlockTxs demoEnvNoSign demoNode).2.2.1 = Result.OK
    ∧ addCoinbaseTx demoEnvNoSign demoState demoView demoValidator [demoValidator] [] = [] := by
  have h := proposeBlockTxs_best_effort demoEnvNoSign demoNode demoState demoView
    demoValidator [demoValidator] []
  exact ⟨rfl, h.1, h.2.2.1 rfl⟩

theorem executeTxsGo_error_isError (env : Env) (B : List Bytes) :
    ∀ (v vb : StoreView) (res : Result),
      executeTxsGo env v B = Except.error (vb, res) → res.isError = true := by
  induction B with
  | nil =>
    intro v vb res h
    simp [executeTxsGo] at h
  | cons b B ih =>
    intro v vb res h
    cases hd : env.txFromBytes b with
    | none =>
      simp only [executeTxsGo, hd] at h
      injection h with h1
      injection h1 with h2 h3
      rw [← h3]
      rfl
    | some tx =>
      simp only [executeTxsGo, hd] at h
      split at h
      · injection h with h1
        injection h1 with h2 h3
        rw [← h3]
        assumption
      · exact ih _ _ _ h

/-- C1: on any non-OK return of ApplyBlockTxs — decode failure, execution
failure or state-root mismatch — the delivered view is reset to the entry
pair (height, root), provided that pair is a known committed snapshot. -/
theorem applyBlockTxs_atomicity (env : Env) (node : Node) (B : List Bytes) (r : StateHash)
    (hdb : (findSnapshot node.state.db node.state.delivered.height
      node.state.delivered.hash).isSome = true) :
    (applyBlockTxs env node B r).1.isError = true →
      (applyBlockTxs env node B r).2.state.delivered.height = node.state.delivered.height
      ∧ (applyBlockTxs env node B r).2.state.delivered.hash = node.state.delivered.hash := by
  obtain ⟨w, hw⟩ := Option.isSome_iff_exists.mp hdb
  have hpw : (w.height == node.state.delivered.height
      && w.hash == node.state.delivered.hash) = true := by
    have := List.find?_some (by simpa [findSnapshot] using hw)
    exact this
  obtain ⟨hbh, hbr⟩ := Bool.and_eq_true_iff.mp hpw
  have hwh : w.height = node.state.delivered.height := eq_of_beq hbh
  have hwr : w.hash = node.state.delivered.hash := eq_of_beq hbr
  have hfind : node.state.db.find? (fun v => v.height == node.state.delivered.height
      && v.hash == node.state.delivered.hash) = some w := by
    simpa [findSnapshot] using hw
  have hreset : ∀ st1 : LedgerState, st1.db = node.state.db →
      (resetState st1 node.state.delivered.height node.state.delivered.hash).1.delivered = w := by
    intro st1 hst
    simp only [resetState, LedgerState.resetToSnapshot, findSnapshot, hst, hfind]
    split <;> rfl
  cases hex : executeTxsGo env node.state.delivered B with
  | error p =>
    obtain ⟨vb, res⟩ := p
    simp only [applyBlockTxs, hex]
    intro _
    have hdel := hreset { node.state with delivered := vb } rfl
    exact ⟨by simp [hdel, hwh], by simp [hdel, hwr]⟩
  | ok v' =>
    simp only [applyBlockTxs, hex]
    by_cases hroot : v'.hash ≠ r
    · rw [if_pos hroot]
      intro _
      have hdel := hreset { node.state with delivered := v' } rfl
      exact ⟨by simp [hdel, hwh], by simp [hdel, hwr]⟩
    · rw [if_neg hroot]
      intro hcontra
      have hok : Result.OK.isError = true := hcontra
      exact absurd hok (by decide)

/-- Witness for C1: a batch whose first element fails to decode triggers a
rollback that restores the delivered view's entry height and root. -/
theorem applyBlockTxs_atomicity_witness :
    (findSnapshot demoNode.state.db demoNode.state.delivered.height
      demoNode.state.delivered.hash).isSome = true
    ∧ (applyBlockTxs demoEnv demoNode [[]] []).1.isError = true
    ∧ (applyBlockTxs demoEnv demoNode [[]] []).2.state.delivered.height =
        demoNode.state.delivered.height :=
  ⟨by decide,
   by decide,
   (applyBlockTxs_atomicity demoEnv demoNode [[]] [] (by decide) (by decide)).1⟩

/-- C3: when every transaction of the batch decodes and executes successfully
and the post-batch delivered root equals the expected root, ApplyBlockTxs
returns OK, commits the delivered view as a persistent snapshot, and removes
exactly the batch entries from the mempool. -/
theorem applyBlockTxs_success (env : Env) (node : Node) (B : List Bytes)
    (r : StateHash) (v' : StoreView)
    (hexec : executeTxsGo env node.state.delivered B = Except.ok v')
    (hroot : v'.hash = r) :
    (applyBlockTxs env node B r).1 = Result.OK
    ∧ (applyBlockTxs env node B r).2.state.delivered = v'
    ∧ (applyBlockTxs env node B r).2.state.delivered.hash = r
    ∧ (applyBlockTxs env node B r).2.state.db = v' :: node.state.db
    ∧ (∀ t, t ∈ (applyBlockTxs env node B r).2.mempool ↔ t ∈ node.mempool ∧ t ∉ B) := by
  have happ : applyBlockTxs env node B r =
      (Result.OK, ⟨LedgerState.commit { node.state with delivered := v' },
        mempoolUpdate node.mempool B⟩) := by
    simp [applyBlockTxs, hexec, hroot]
  rw [happ]
  refine ⟨rfl, rfl, ?_, rfl, ?_⟩
  · simpa [LedgerState.commit] using hroot
  · intro t
    simp [LedgerState.commit, mempoolUpdate, List.mem_filter]

/-- Witness for C3: an empty-effect user transaction applies cleanly and the
ledger commits with the expected root. -/
theorem applyBlockTxs_success_witness :
    executeTxsGo demoEnv demoNode.state.delivered [encodeTx demoSend] = Except.ok demoView
    ∧ demoView.hash = [0]
    ∧ (applyBlockTxs demoEnv demoNode [encodeTx demoSend] [0]).1 = Result.OK := by
  have hexec : executeTxsGo demoEnv demoNode.state.delivered [encodeTx demoSend] =
      Except.ok demoView := by
    have hd : demoEnv.txFromBytes (encodeTx demoSend) = some demoSend :=
      txCodec_roundtrip demoSend (encodeTx demoSend) rfl
    simp [executeTxsGo, hd, demoEnv, demoExecutorOK, Result.isError, Result.OK]
    rfl
  exact ⟨hexec, rfl,
    (applyBlockTxs_success demoEnv demoNode [encodeTx demoSend] [0] demoView hexec rfl).1⟩

/-- C5: screening a raw transaction whose decoded kind is coinbase or slash
returns the UnauthorizedTx error code regardless of its signatures, and
screening never mutates the ledger state for any input. -/
theorem screenTx_unauthorized (env : Env) (node : Node) (raw : Bytes) (tx : Tx)
    (hdec : env.txFromBytes raw = some tx)
    (hkind : tx.kind = TxKind.coinbaseK ∨ tx.kind = TxKind.slashK) :
    (screenTx env node raw).1.code = ErrCode.codeUnauthorizedTx
    ∧ ∀ raw2 : Bytes, (screenTx env node raw2).2 = node := by
  constructor
  · have hskip : shouldSkipCheckTx tx = true := by
      cases tx with
      | coinbase p o h s => rfl
      | slash p a rs pf s => rfl
      | send i o f s => rcases hkind with h | h <;> simp [Tx.kind] at h
    simp [screenTx, hdec, hskip, Result.withErrorCode]
  · intro raw2
    simp only [screenTx]
    cases env.txFromBytes raw2 with
    | none => rfl
    | some t =>
      by_cases h : shouldSkipCheckTx t <;> simp [h]

/-- Witness for C5: a coinbase transaction carrying a junk signature is
rejected with the UnauthorizedTx code. -/
theorem screenTx_unauthorized_witness :
    demoEnv.txFromBytes (encodeTx demoCoinbaseSigned) = some demoCoinbaseSigned
    ∧ (screenTx demoEnv demoNode (encodeTx demoCoinbaseSigned)).1.code =
        ErrCode.codeUnauthorizedTx := by
  have hdec : demoEnv.txFromBytes (encodeTx demoCoinbaseSigned) = some demoCoinbaseSigned :=
    txCodec_roundtrip demoCoinbaseSigned (encodeTx demoCoinbaseSigned) rfl
  exact ⟨hdec,
    (screenTx_unauthorized demoEnv demoNode (encodeTx demoCoinbaseSigned)
      demoCoinbaseSigned hdec (Or.inl rfl)).1⟩

theorem specDropFailing_sublist (env : Env) (cs : List Bytes) :
    ∀ v : StoreView, List.Sublist (specDropFailing env v cs).2 cs := by
  induction cs with
  | nil => intro v; simp [specDropFailing]
  | cons c cs ih =>
    intro v
    simp only [specDropFailing]
    cases hd : env.txFromBytes c with
    | none => exact List.Sublist.cons c (ih v)
    | some tx =>
      by_cases hres : (env.executor.checkTx v tx).2.isError
      · simp only [hres, if_pos]
        exact List.Sublist.cons c (ih _)
      · simp only [hres, if_neg, Bool.false_eq_true, not_false_eq_true]
        exact List.Sublist.cons₂ c (ih _)

/-- C6: with an empty mempool the proposed batch contains exactly one
coinbase-kind transaction; it decodes to the coinbase built from the reward
map of the checked view over the epoch's validator addresses, at the ledger
state's height, signed by the epoch's proposer. -/
theorem proposeBlockTxs_coinbase_inclusion (env : Env) (node : Node)
    (sig : Signature) (cbB : Bytes)
    (hmp : node.mempool = [])
    (hrt : ∀ t b, env.txToBytes t = some b → env.txFromBytes b = some t)
    (hsig : signTransaction env node.state (unsignedCoinbaseTx env node.state
      node.state.checked (env.getProposerForEpoch env.epoch)
      (env.getValidatorSetForEpoch env.epoch)) = some sig)
    (henc : env.txToBytes (signedCoinbaseTx env node.state node.state.checked
      (env.getProposerForEpoch env.epoch)
      (env.getValidatorSetForEpoch env.epoch) sig) = some cbB)
    (hchk : (env.executor.checkTx { node.state.checked with slashIntents := [] }
      (signedCoinbaseTx env node.state node.state.checked
        (env.getProposerForEpoch env.epoch)
        (env.getValidatorSetForEpoch env.epoch) sig)).2.isError = false) :
    ((proposeBlockTxs env node).2.1).countP (decodesToCoinbase env) = 1
    ∧ cbB ∈ (proposeBlockTxs env node).2.1
    ∧ env.txFromBytes cbB = some (Tx.coinbase
        (mkProposerTxIn (env.getProposerForEpoch env.epoch))
        (mkCoinbaseTxOutputs (env.rewardIter node.state.checked
          ((env.getValidatorSetForEpoch env.epoch).map Validator.address)))
        node.state.height
        (setSig [] (env.getProposerForEpoch env.epoch).address sig)) := by
  have hcbOpt : coinbaseTxBytesOpt env node.state node.state.checked
      (env.getProposerForEpoch env.epoch) (env.getValidatorSetForEpoch env.epoch) = some cbB := by
    simp [coinbaseTxBytesOpt, hsig, henc]
  have hparts : proposeParts env node = proposeSpecParts env node cbB := by
    simp [proposeParts, proposeSpecParts, coinbaseBatchPart, hcbOpt]
  have hbatch : (proposeBlockTxs env node).2.1 = (proposeSpecParts env node cbB).2 := by
    rw [propose_structure, hparts]
  have hreap : mempoolReap node.mempool MaxNumRegularTxsPerBlock = [] := by
    simp [mempoolReap, hmp]
  have hdec0 : env.txFromBytes cbB = some (signedCoinbaseTx env node.state
      node.state.checked (env.getProposerForEpoch env.epoch)
      (env.getValidatorSetForEpoch env.epoch) sig) :=
    hrt _ _ henc
  have hspec : (proposeSpecParts env node cbB).2 =
      cbB :: (specDropFailing env
        (env.executor.checkTx { node.state.checked with slashIntents := [] }
          (signedCoinbaseTx env node.state node.state.checked
            (env.getProposerForEpoch env.epoch)
            (env.getValidatorSetForEpoch env.epoch) sig)).1
        (node.state.checked.slashIntents.filterMap
          (slashTxBytesOfIntent env node.state (env.getProposerForEpoch env.epoch)))).2 := by
    simp only [proposeSpecParts, hreap, List.append_nil, specDropFailing, hdec0]
    simp [hchk]
  have hLmem : ∀ b ∈ node.state.checked.slashIntents.filterMap
      (slashTxBytesOfIntent env node.state (env.getProposerForEpoch env.epoch)),
      decodesToCoinbase env b = false := by
    intro b hb
    obtain ⟨i, hi, hfi⟩ := List.mem_filterMap.mp hb
    simp only [slashTxBytesOfIntent] at hfi
    cases hs2 : signTransaction env node.state
        (Tx.slash (mkProposerTxIn (env.getProposerForEpoch env.epoch))
          i.address i.reserveSequence i.proof []) with
    | none => rw [hs2] at hfi; simp at hfi
    | some s2 =>
      rw [hs2] at hfi
      have hdb := hrt _ _ hfi
      simp [decodesToCoinbase, hdb, Tx.kind]
      decide
  have hsub := specDropFailing_sublist env
    (node.state.checked.slashIntents.filterMap
      (slashTxBytesOfIntent env node.state (env.getProposerForEpoch env.epoch)))
    (env.executor.checkTx { node.state.checked with slashIntents := [] }
      (signedCoinbaseTx env node.state node.state.checked
        (env.getProposerForEpoch env.epoch)
        (env.getValidatorSetForEpoch env.epoch) sig)).1
  have hcnt0 : (specDropFailing env
      (env.executor.checkTx { node.state.checked with slashIntents := [] }
        (signedCoinbaseTx env node.state node.state.checked
          (env.getProposerForEpoch env.epoch)
          (env.getValidatorSetForEpoch env.epoch) sig)).1
      (node.state.checked.slashIntents.filterMap
        (slashTxBytesOfIntent env node.state
          (env.getProposerForEpoch env.epoch)))).2.countP (decodesToCoinbase env) = 0 := by
    rw [List.countP_eq_zero]
    intro a ha
    simp [hLmem a (hsub.subset ha)]
  have hone : decodesToCoinbase env cbB = true := by
    simp [decodesToCoinbase, hdec0, signedCoinbaseTx, Tx.kind]
    decide
  refine ⟨?_, ?_, by rw [hdec0]; rfl⟩
  · rw [hbatch, hspec]
    simp [List.countP_cons, hone, hcnt0]
  · rw [hbatch, hspec]
    exact List.mem_cons_self cbB _

/-- Witness for C6 at the demonstration environment with an empty mempool:
the hypotheses hold concretely and the batch contains exactly one
coinbase-kind transaction. -/
theorem proposeBlockTxs_coinbase_inclusion_witness :
    demoNode.mempool = []
    ∧ ((proposeBlockTxs demoEnv demoNode).2.1).countP (decodesToCoinbase demoEnv) = 1 := by
  have hrt : ∀ t b, demoEnv.txToBytes t = some b → demoEnv.txFromBytes b = some t := by
    intro t b h
    exact txCodec_roundtrip t b h
  have h := proposeBlockTxs_coinbase_inclusion demoEnv demoNode 7
    (encodeTx (signedCoinbaseTx demoEnv demoNode.state demoNode.state.checked
      (demoEnv.getProposerForEpoch demoEnv.epoch)
      (demoEnv.getValidatorSetForEpoch demoEnv.epoch) 7))
    rfl hrt rfl rfl rfl
  exact ⟨rfl, h.1⟩

/-- C7 refutation: two runs of ProposeBlockTxs from the identical ledger
state, epoch, proposer, validator set and mempool, whose reward maps agree as
maps (the enumerations are permutations of each other), produce different
batches: the coinbase outputs follow the map enumeration order of the run. -/
theorem proposeBlockTxs_reward_order_nondeterminism :
    demoEnvSwapped.epoch = demoEnv.epoch
    ∧ demoEnvSwapped.getProposerForEpoch demoEnv.epoch =
        demoEnv.getProposerForEpoch demoEnv.epoch
    ∧ demoEnvSwapped.getValidatorSetForEpoch demoEnv.epoch =
        demoEnv.getValidatorSetForEpoch demoEnv.epoch
    ∧ List.Perm (demoEnv.rewardIter demoNode.state.checked [demoValidator.address])
        (demoEnvSwapped.rewardIter demoNode.state.checked [demoValidator.address])
    ∧ (proposeBlockTxs demoEnv demoNode).2.1 ≠ (proposeBlockTxs demoEnvSwapped demoNode).2.1 := by
  refine ⟨rfl, rfl, rfl, ?_, ?_⟩
  · show List.Perm [(1, 5), (2, 7)] [(2, 7), (1, 5)]
    exact List.Perm.swap (2, 7) (1, 5) []
  · decide

end Theta
